import Mathlib

/-!
Verification of the arkouda alignment module (src/arkouda/alignment.py).

Value arrays are modelled as lists of integers tagged with a dtype
(`PD`); multi-column KeySets as lists of such columns.  The external
primitive layer consumed by the module (stable ascending sort / argsort,
group-by with reductions and broadcast, ordered concatenation,
gen_ranges, boolean-mask and fancy indexing) is modelled by executable
list functions realizing the contracts stated in the specification.
Python exceptions become an `Except Err` result; the implicit `None`
return of a Python function that falls off its end is modelled with
`Option`.
-/

namespace Arkouda

/-- Dtypes of the arrays handled by the module. -/
inductive DT where
  | int64 | uint64 | float64 | boolean
deriving DecidableEq, Repr

/-- Model of an arkouda pdarray: a dtype together with its data
(numeric values modelled as integers). -/
structure PD where
  dtype : DT
  data : List Int
deriving DecidableEq, Repr

/-- Python exception classes raised by the module. -/
inductive Err where
  | typeError | valueError | indexError
deriving DecidableEq, Repr

/-! ### Primitive layer (external collaborators of the module)

The sort primitive: a structural (hence fully computable) insertion
sort; with the total comparators used below it produces the ascending
sorted permutation required by the `argsort`/`GroupBy` contracts. -/

/-- Insert an element into a sorted list (sort primitive helper). -/
def insertSorted (le : α → α → Bool) (a : α) : List α → List α
  | [] => [a]
  | b :: bs => if le a b then a :: b :: bs else b :: insertSorted le a bs

/-- Ascending sort by a total comparator (model of the primitive-layer sort). -/
def sortLe (le : α → α → Bool) : List α → List α
  | [] => []
  | a :: as => insertSorted le a (sortLe le as)

/-- Comparator for Int (ascending). -/
def intLe (a b : Int) : Bool := decide (a ≤ b)

/-- Comparator for Nat (ascending). -/
def natLe (a b : Nat) : Bool := decide (a ≤ b)

/-- Lexicographic comparator on rows (tuple-valued group-by keys). -/
def rowLe : List Int → List Int → Bool
  | [], _ => true
  | _ :: _, [] => false
  | a :: as, b :: bs => if a < b then true else if b < a then false else rowLe as bs

/-- GroupBy unique keys: the ascending distinct keys of the grouped array. -/
def uniqueKeys [DecidableEq α] (le : α → α → Bool) (keys : List α) : List α :=
  (sortLe le keys).dedup

/-- Positions (ascending) at which a key occurs in the grouped array;
`GroupBy` reductions aggregate the companion values at these positions. -/
def posOf [DecidableEq α] (keys : List α) (k : α) : List Nat :=
  (List.range keys.length).filter (fun p => decide (keys[p]? = some k))

/-- Minimum of a list of integers (0 on the empty list, which the
group-by reductions never hit: every group is non-empty). -/
def minInt : List Int → Int
  | [] => 0
  | x :: xs => xs.foldl min x

/-- Minimum of a list of naturals. -/
def minNat : List Nat → Nat
  | [] => 0
  | x :: xs => xs.foldl min x

/-- GroupBy.sum: per unique key, the sum of the companion values of its members. -/
def groupSum [DecidableEq α] (le : α → α → Bool) (keys : List α) (vals : List Int) : List Int :=
  (uniqueKeys le keys).map (fun k => ((posOf keys k).map (fun p => vals.getD p 0)).sum)

/-- GroupBy.min: per unique key, the minimum companion value of its members. -/
def groupMin [DecidableEq α] (le : α → α → Bool) (keys : List α) (vals : List Int) : List Int :=
  (uniqueKeys le keys).map (fun k => minInt ((posOf keys k).map (fun p => vals.getD p 0)))

/-- GroupBy.broadcast with permute=True: replicate each group value to
every member position, in original (pre-sort) order. -/
def groupBroadcast [DecidableEq α] (le : α → α → Bool) (keys : List α) (uvals : List Int) :
    List Int :=
  keys.map (fun kv => uvals.getD (List.indexOf kv (uniqueKeys le keys)) 0)

/-- Boolean-mask indexing a[mask]. -/
def boolIndex (xs : List α) (mask : List Bool) : List α :=
  (xs.zip mask).filterMap (fun xb => if xb.2 then some xb.1 else none)

/-- Elementwise where(cond, scalar, array) from arkouda.numeric. -/
def whereSI (cond : List Bool) (a : Int) (b : List Int) : List Int :=
  List.zipWith (fun c x => if c then a else x) cond b

/-! ### DenseIndexMapper: zero_up and align -/

/-- Embedding of `zero_up`: group the values, attach `arange(number of
unique keys)` to the unique keys, and broadcast it back in original order. -/
def zero_up (vals : List Int) : List Int :=
  let uniqueInds := List.range (uniqueKeys intLe vals).length
  groupBroadcast intLe vals (uniqueInds.map (fun r : Nat => (r : Int)))

/-- The slicing loop of `align`: ret.append(inds[pos : pos + arg.size]). -/
def alignSlices (inds : List Int) : Nat → List (List Int) → List (List Int)
  | _, [] => []
  | pos, a :: rest => ((inds.drop pos).take a.length) :: alignSlices inds (pos + a.length) rest

/-- Embedding of `align`: ordered concatenation, `zero_up`, then slicing
the result back into per-input segments. -/
def align (args : List (List Int)) : List (List Int) :=
  alignSlices (zero_up args.flatten) 0 args

/-! ### EqualityLookupEngine: find -/

/-- Query/space argument of `find`: a single array or a sequence of
co-indexed columns. -/
inductive KArg where
  | single (a : PD)
  | multi (as : List PD)
deriving DecidableEq, Repr

/-- Rows of a multi-column KeySet: position p yields the tuple of column
values at p; grouping a list of co-indexed arrays groups on these rows. -/
def rowsOf (cols : List PD) : List (List Int) :=
  match cols with
  | [] => []
  | c0 :: _ => (List.range c0.data.length).map (fun p => cols.map (fun c => c.data.getD p 0))

/-- Python len(set(x.size for x in arrays)) == 1: the arrays form a
non-empty sequence of equal-length columns. -/
def oneSize (as : List PD) : Bool :=
  match as with
  | [] => false
  | a :: rest => rest.all (fun b => decide (b.data.length = a.data.length))

/-- Per-column ordered concatenation of the space and query columns. -/
def combineCols (ss qs : List PD) : List PD :=
  List.zipWith (fun s q => PD.mk s.dtype (s.data ++ q.data)) ss qs

/-- The lowest index at which k occurs in l: the spec-side notion of
"position in space" (first occurrence), with the comparator of the
group-by model. -/
def lowestIndex [DecidableEq α] (k : α) (l : List α) : Nat := List.indexOf k l

/-- Occurrence count of k in l, with the same comparator. -/
def occCount [DecidableEq α] (k : α) (l : List α) : Nat := List.count k l

/-- Specification value of `find` for one query element (or row): its
lowest index in the space, or -1 when absent. -/
def findSpecVal [DecidableEq α] (s : List α) (k : α) : Int :=
  if k ∈ s then ((lowestIndex k s : Nat) : Int) else -1

/-- The body of `find` shared by the single-array and multi-column
branches, acting on the combined group-by keys `c` (space block then
query block): attach combined indices, group, sum the space-membership
indicator, take the per-group minimum index, map minima that exceed the
space size to -1, broadcast back, and keep the query slice.  The first
component is the duplicate-key warning flag. -/
def findCore [DecidableEq α] (le : α → α → Bool) (c : List α) (spacesize querysize : Nat) :
    Bool × List Int :=
  let i := List.range spacesize ++ List.range' spacesize querysize
  let spaceMultiplicity :=
    groupSum le c (i.map (fun p => if p < spacesize then (1 : Int) else 0))
  let warned := spaceMultiplicity.any (fun x => decide (1 < x))
  let uspaceidx := groupMin le c (i.map (fun p : Nat => (p : Int)))
  let uspaceidx2 :=
    whereSI (uspaceidx.map (fun v => decide ((spacesize : Int) ≤ v))) (-1) uspaceidx
  let spaceidx := groupBroadcast le c uspaceidx2
  (warned, boolIndex spaceidx (i.map (fun p => decide (spacesize ≤ p))))

/-- Embedding of `find(query, space)`.  The result carries the
duplicate-key warning flag next to the index array.  The case of a
sequence-typed query against a single-array space is modelled from the
spec: mixing single-array and multi-axis forms is rejected (the code
path through ``len``/iteration of a pdarray lies outside this module). -/
def findE : KArg → KArg → Except Err (Bool × List Int)
  | .single q, .single s =>
    .ok (findCore intLe (s.data ++ q.data) s.data.length q.data.length)
  | .single _, .multi _ => .error .typeError
  | .multi _, .single _ => .error .typeError
  | .multi qs, .multi ss =>
    if qs.length ≠ ss.length then .error .typeError
    else if ¬ (oneSize ss = true ∧ oneSize qs = true) then .error .typeError
    else if qs.map PD.dtype ≠ ss.map PD.dtype then .error .typeError
    else
      .ok (findCore rowLe (rowsOf (combineCols ss qs))
        (match ss with | [] => 0 | s0 :: _ => s0.data.length)
        (match qs with | [] => 0 | q0 :: _ => q0.data.length))

/-! ### IntervalSearchEngine primitives: argsort, gen_ranges, segment broadcast -/

/-- Stable ascending argsort: positions sorted by (value, position), the
companion index making the comparator a total order.  This realizes the
`argsort` contract of the primitive layer. -/
def argsortK (xs : List Int) : List Nat :=
  sortLe (fun p q =>
      decide (xs.getD p 0 < xs.getD q 0) ||
        (decide (xs.getD p 0 = xs.getD q 0) && decide (p ≤ q)))
    (List.range xs.length)

/-- Exclusive prefix sums of segment lengths: the segment offsets
returned by `gen_ranges`. -/
def segsOf (acc : Nat) : List Nat → List Nat
  | [] => []
  | l :: ls => acc :: segsOf (acc + l) ls

/-- Embedding of `gen_ranges(starts, ends)`: the segment offsets and the
flattened list of all integers in each half-open [start, end) range. -/
def genRanges (ss es : List Nat) : List Nat × List Nat :=
  (segsOf 0 (List.zipWith (fun s e => e - s) ss es),
    (List.zipWith (fun s e => List.range' s (e - s)) ss es).flatten)

/-- Segment lengths recovered from offsets and the total size. -/
def segLens : List Nat → Nat → List Nat
  | [], _ => []
  | [a], size => [size - a]
  | a :: b :: rest, size => (b - a) :: segLens (b :: rest) size

/-- Embedding of `broadcast(segments, values, size)`: replicate each
per-segment value across its segment. -/
def broadcastSeg (segs : List Nat) (vals : List α) (size : Nat) : List α :=
  (List.zipWith (fun cnt v => List.replicate cnt v) (segLens segs size) vals).flatten

/-- First index with the minimum companion value among a list of
positions (GroupBy.argmin reduction; ties resolved to the earliest
position). -/
def argminPos (tvals : List Int) : List Nat → Nat
  | [] => 0
  | t :: ts => ts.foldl (fun best u => if tvals.getD u 0 < tvals.getD best 0 then u else best) t

/-- GroupBy.argmin: per unique key, the index (into the original value
array) achieving the per-group minimum. -/
def groupArgmin [DecidableEq α] (le : α → α → Bool) (keys : List α) (tvals : List Int) :
    List α × List Nat :=
  ((uniqueKeys le keys), (uniqueKeys le keys).map (fun k => argminPos tvals (posOf keys k)))

/-- Fancy-index assignment base[idxs] = vals (positionally zipped). -/
def scatter (base : List Int) (idxs : List Nat) (vals : List Int) : List Int :=
  (idxs.zip vals).foldl (fun b jv => b.set jv.1 jv.2) base

/-- Count of True entries (Python bool-array .sum()). -/
def countTrue (mask : List Bool) : Nat := (mask.filter id).length

/-! ### IntervalSearchEngine: search_intervals -/

/-- Computational core of the single-axis branch of `search_intervals`
(after validation): sort low ++ vals ++ high, locate the rank band of
each interval, expand bands with gen_ranges, map ranks back through the
sort permutation, keep hits from the vals block, break ties per value by
GroupBy.argmin of the tiebreak, and scatter the winners into the
-1-initialized result. -/
def searchIntervals1 (valsD lowD highD tiebreak : List Int) : List Int :=
  let n := lowD.length
  let m := valsD.length
  let containing0 : List Int := List.replicate m (-1)
  let concat := lowD ++ valsD ++ highD
  let perm := argsortK concat
  let iperm := argsortK (perm.map (fun p : Nat => (p : Int)))
  let boundary := m + n
  let starts := iperm.take n
  let ends := iperm.drop boundary
  let valid := List.zipWith (fun e s => decide (s + 1 < e)) ends starts
  if 0 < countTrue valid then
    let sp := genRanges ((boolIndex starts valid).map (fun s => s + 1)) (boolIndex ends valid)
    let matchesL := sp.2.map (fun r => perm.getD r 0)
    let hitidx := boolIndex (List.range valid.length) valid
    let matchintervalidx := broadcastSeg sp.1 hitidx matchesL.length
    let validmatch := matchesL.map (fun p => decide (n ≤ p) && decide (p < boundary))
    let matchintervalidx2 := boolIndex matchintervalidx validmatch
    let validx := (boolIndex matchesL validmatch).map (fun p => p - n)
    let ga := groupArgmin natLe validx (matchintervalidx2.map (fun i => tiebreak.getD i 0))
    scatter containing0 ga.1
      (ga.2.map (fun t => ((matchintervalidx2.getD t 0 : Nat) : Int)))
  else containing0

/-- Per-axis logical AND of the valid masks (functools.reduce over &). -/
def andMasks : List (List Bool) → List Bool
  | [] => []
  | l :: ls => ls.foldl (fun acc x => List.zipWith and acc x) l

/-- Lexicographic comparator on (value index, interval index) pairs. -/
def pairLe (a b : Nat × Nat) : Bool :=
  decide (a.1 < b.1) || (decide (a.1 = b.1) && decide (a.2 ≤ b.2))

/-- Computational core of the multi-axis branch of `search_intervals`
(after validation).  Mirrors the source: per-axis bands and candidate
(1-d) hits, then a group-by on (value, interval) pairs keeping pairs
covered on every axis, then per-value argmin of the tiebreak.  When no
candidate survives the per-axis band filtering the Python function falls
off the end, returning None: that path is the `none` result here. -/
def searchIntervalsM (valsD lowD highD : List (List Int)) (tiebreak : List Int)
    (valsize lowsize : Nat) : Option (List Int) :=
  let naxes := lowD.length
  let containing0 : List Int := List.replicate valsize (-1)
  let concat := List.zipWith (fun lo vh => lo ++ vh)
    lowD (List.zipWith (fun v hi => v ++ hi) valsD highD)
  let perm := concat.map argsortK
  let iperm := perm.map (fun p => argsortK (p.map (fun r : Nat => (r : Int))))
  let boundary := valsize + lowsize
  let starts := iperm.map (fun ip => ip.take lowsize)
  let ends := iperm.map (fun ip => ip.drop boundary)
  let valid := andMasks
    (List.zipWith (fun e s => List.zipWith (fun ee ss => decide (ss + 1 < ee)) e s) ends starts)
  if 0 < countTrue valid then
    let sp := List.zipWith (fun s e =>
        genRanges ((boolIndex s valid).map (fun x => x + 1)) (boolIndex e valid)) starts ends
    let matchesL := List.zipWith (fun pm spk => spk.2.map (fun r => pm.getD r 0)) perm sp
    let hitidx := boolIndex (List.range valid.length) valid
    let matchintervalidx :=
      List.zipWith (fun spk m => broadcastSeg spk.1 hitidx m.length) sp matchesL
    let validmatch := matchesL.map (fun ms =>
      ms.map (fun p => decide (lowsize ≤ p) && decide (p < boundary)))
    let uvalidx := List.zipWith (fun ms vm => (boolIndex ms vm).map (fun p => p - lowsize))
      matchesL validmatch
    let alluvalidx := uvalidx.flatten
    let allmatchintervalidx :=
      (List.zipWith (fun mi vm => boolIndex mi vm) matchintervalidx validmatch).flatten
    let pairs := alluvalidx.zip allmatchintervalidx
    let ukPairs := uniqueKeys pairLe pairs
    let isahit := ukPairs.map (fun k => decide ((posOf pairs k).length = naxes))
    let valhits := boolIndex (ukPairs.map Prod.fst) isahit
    let intervalhits := boolIndex (ukPairs.map Prod.snd) isahit
    let ga := groupArgmin natLe valhits (intervalhits.map (fun i => tiebreak.getD i 0))
    some (scatter containing0 ga.1
      (ga.2.map (fun t => ((intervalhits.getD t 0 : Nat) : Int))))
  else none

/-- Intervals argument of `search_intervals`: the (low, high) pair, each
a single array or a sequence of per-axis arrays. -/
def numericDT (dt : DT) : Bool :=
  match dt with
  | .int64 => true | .uint64 => true | .float64 => true | .boolean => false

/-- The pointwise high ≥ low check on one axis ((high >= low).all()). -/
def boundsOK (lowD highD : List Int) : Bool :=
  (List.zipWith (fun hi lo => decide (lo ≤ hi)) highD lowD).all id

/-- Embedding of `search_intervals(vals, intervals, tiebreak)` with full
validation.  `.ok none` is the implicit Python None return of the
multi-axis empty-candidate path; `.ok (some r)` is a returned array. -/
def search_intervals (vals : KArg) (intervals : KArg × KArg) (tiebreak : Option (List Int)) :
    Except Err (Option (List Int)) :=
  let low := intervals.1
  let high := intervals.2
  match (match low with
    | .single pd => some pd.data.length
    | .multi [] => none
    | .multi (pd0 :: _) => some pd0.data.length) with
  | none => .error .indexError
  | some intervalsize =>
    let tb := match tiebreak with
      | none => (List.range intervalsize).map (fun r : Nat => (r : Int))
      | some t => t
    if (match tiebreak with
      | none => false
      | some t => decide (t.length ≠ intervalsize)) then .error .typeError
    else
      match vals, low, high with
      | .single v, .single lo, .single hi =>
        if ¬ numericDT v.dtype = true then .error .typeError
        else if v.dtype ≠ lo.dtype ∨ v.dtype ≠ hi.dtype then .error .typeError
        else if lo.data.length ≠ hi.data.length then .error .valueError
        else if ¬ boundsOK lo.data hi.data = true then .error .valueError
        else .ok (some (searchIntervals1 v.data lo.data hi.data tb))
      | .single _, _, _ => .error .typeError
      | .multi vs, lo, hi =>
        match lo, hi with
        | .multi los, .multi his =>
          if vs.length ≠ los.length ∨ vs.length ≠ his.length then .error .typeError
          else if ¬ (oneSize vs = true ∧ oneSize los = true ∧ oneSize his = true) then
            .error .typeError
          else if vs.map PD.dtype ≠ los.map PD.dtype ∨ vs.map PD.dtype ≠ his.map PD.dtype then
            .error .typeError
          else if (match los with | [] => 0 | l0 :: _ => l0.data.length) ≠
              (match his with | [] => 0 | h0 :: _ => h0.data.length) then .error .valueError
          else if ¬ (List.zipWith (fun h l => boundsOK l.data h.data) his los).all id = true then
            .error .valueError
          else
            match searchIntervalsM (vs.map PD.data) (los.map PD.data) (his.map PD.data) tb
              (match vs with | [] => 0 | v0 :: _ => v0.data.length)
              (match los with | [] => 0 | l0 :: _ => l0.data.length) with
            | some r => .ok (some r)
            | none => .ok none
        | _, _ => .error .typeError

/-! ### interval_lookup -/

/-- Values argument of the lookup functions: a raw numeric array or an
encoded/categorical representation.  The encoded variant is modelled
from the spec design note: {codes, categoryTable, missingCode} plus the
NA value used when rewrapping; the Categorical class itself lies outside
this module. -/
inductive VArr where
  | raw (pd : PD)
  | encoded (codes : List Int) (categories : List Int) (naCode : Int) (naValue : Int)
deriving DecidableEq, Repr

/-- Boolean-mask assignment base[mask] = vals (vals consumed in order). -/
def maskedAssign : List Int → List Bool → List Int → List Int
  | [], _, _ => []
  | bs, [], _ => bs
  | b :: bs, mk :: ms, vs =>
    if mk then vs.headD b :: maskedAssign bs ms vs.tail else b :: maskedAssign bs ms vs

/-- Size of the arguments array (arguments.size, or arguments[0].size). -/
def argSize : KArg → Nat
  | .single a => a.data.length
  | .multi [] => 0
  | .multi (a :: _) => a.data.length

/-- Embedding of `interval_lookup(keys, values, arguments, fillvalue,
tiebreak)`.  For encoded (categorical) values the source recurses on the
code array with the missing code as fill value and does not forward the
tiebreak, then rewraps with the original category table; a `None` result
of `search_intervals` (multi-axis empty-candidate path) makes the
subsequent comparison `idx > -1` raise a TypeError in Python. -/
def interval_lookup_raw (keys : KArg × KArg) (vpd : PD) (arguments : KArg)
    (fillvalue : Option Int) (tiebreak : Option (List Int)) : Except Err PD :=
  match search_intervals arguments keys tiebreak with
  | .error e => .error e
  | .ok none => .error .typeError
  | .ok (some idx) =>
    let asize := argSize arguments
    let res : List Int := List.replicate asize 0
    let res2 := match fillvalue with
      | some fv => List.replicate asize fv
      | none => res
    let found := idx.map (fun k => decide (-1 < k))
    .ok ⟨vpd.dtype,
      maskedAssign res2 found ((boolIndex idx found).map (fun k => vpd.data.getD k.toNat 0))⟩

/-- Embedding of `interval_lookup` proper: dispatch on the values
representation, with the unwrap/compute/rewrap step for encoded values
(the recursive call of the source, which reaches the raw case at depth
one).  The recursive call passes fillvalue=values._NAcode and leaves the
tiebreak at its default. -/
def interval_lookup (keys : KArg × KArg) (values : VArr) (arguments : KArg)
    (fillvalue : Option Int) (tiebreak : Option (List Int)) : Except Err VArr :=
  match values with
  | .encoded codes cats naCode naVal =>
    match interval_lookup_raw keys ⟨.int64, codes⟩ arguments (some naCode) none with
    | .ok pd => .ok (.encoded pd.data cats naCode naVal)
    | .error e => .error e
  | .raw vpd =>
    match interval_lookup_raw keys vpd arguments fillvalue tiebreak with
    | .ok pd => .ok (.raw pd)
    | .error e => .error e

/-! ## Theorems

Infrastructure lemmas on the primitive-layer model. -/

theorem insertSorted_perm (le : α → α → Bool) (a : α) (l : List α) :
    (insertSorted le a l).Perm (a :: l) := by
  induction l with
  | nil => exact List.Perm.refl _
  | cons b bs ih =>
    unfold insertSorted
    by_cases h : le a b = true
    · simp [h]
    · simp only [h, if_false, Bool.false_eq_true]
      exact (ih.cons b).trans (List.Perm.swap a b bs)

theorem sortLe_perm (le : α → α → Bool) (l : List α) : (sortLe le l).Perm l := by
  induction l with
  | nil => exact List.Perm.refl _
  | cons a as ih => exact (insertSorted_perm le a _).trans (ih.cons a)

theorem insertSorted_pairwise (le : α → α → Bool)
    (htr : ∀ a b c, le a b = true → le b c = true → le a c = true)
    (hto : ∀ a b, le a b = true ∨ le b a = true) (a : α) (l : List α)
    (h : l.Pairwise (fun x y => le x y = true)) :
    (insertSorted le a l).Pairwise (fun x y => le x y = true) := by
  induction l with
  | nil => simp [insertSorted]
  | cons b bs ih =>
    rw [List.pairwise_cons] at h
    obtain ⟨hb, hbs⟩ := h
    unfold insertSorted
    by_cases hab : le a b = true
    · simp only [hab, if_true]
      refine List.Pairwise.cons (fun y hy => ?_) (List.Pairwise.cons hb hbs)
      rcases List.mem_cons.mp hy with h1 | h1
      · exact h1 ▸ hab
      · exact htr a b y hab (hb y h1)
    · simp only [hab, if_false, Bool.false_eq_true]
      have hba : le b a = true := (hto a b).resolve_left hab
      refine List.Pairwise.cons (fun y hy => ?_) (ih hbs)
      rcases List.mem_cons.mp ((insertSorted_perm le a bs).mem_iff.mp hy) with h1 | h1
      · exact h1 ▸ hba
      · exact hb y h1

theorem sortLe_pairwise (le : α → α → Bool)
    (htr : ∀ a b c, le a b = true → le b c = true → le a c = true)
    (hto : ∀ a b, le a b = true ∨ le b a = true) (l : List α) :
    (sortLe le l).Pairwise (fun x y => le x y = true) := by
  induction l with
  | nil => simp [sortLe]
  | cons a as ih => exact insertSorted_pairwise le htr hto a _ ih

theorem mem_uniqueKeys [DecidableEq α] (le : α → α → Bool) (keys : List α) (a : α) :
    a ∈ uniqueKeys le keys ↔ a ∈ keys := by
  unfold uniqueKeys
  rw [List.mem_dedup]
  exact (sortLe_perm le keys).mem_iff

theorem nodup_uniqueKeys [DecidableEq α] (le : α → α → Bool) (keys : List α) :
    (uniqueKeys le keys).Nodup :=
  List.nodup_dedup _

theorem posOf_cons [DecidableEq α] (a : α) (keys : List α) (k : α) :
    posOf (a :: keys) k = (if a = k then [0] else []) ++ (posOf keys k).map Nat.succ := by
  unfold posOf
  show (List.range (keys.length + 1)).filter _ = _
  rw [List.range_succ_eq_map, List.filter_cons, List.filter_map]
  have hpred : ((fun p => decide ((a :: keys)[p]? = some k)) ∘ Nat.succ) =
      fun p => decide (keys[p]? = some k) := by
    funext p
    simp
  rw [hpred]
  by_cases h : a = k
  · subst h
    simp
  · simp [h]

theorem mem_posOf [DecidableEq α] {keys : List α} {k : α} {p : Nat} :
    p ∈ posOf keys k ↔ p < keys.length ∧ keys[p]? = some k := by
  unfold posOf
  simp [List.mem_filter, List.mem_range]

theorem posOf_ne_nil [DecidableEq α] {keys : List α} {k : α} (h : k ∈ keys) :
    posOf keys k ≠ [] := by
  obtain ⟨n, hn, hk⟩ := List.mem_iff_getElem.mp h
  have hmem : n ∈ posOf keys k := mem_posOf.mpr ⟨hn, by rw [List.getElem?_eq_getElem hn, hk]⟩
  intro hnil
  rw [hnil] at hmem
  exact (List.not_mem_nil n) hmem

theorem foldl_min_zero (l : List Nat) : l.foldl min 0 = 0 := by
  induction l with
  | nil => rfl
  | cons x xs ih =>
    simp only [List.foldl_cons, Nat.zero_min]
    exact ih

theorem minNat_cons_zero (l : List Nat) : minNat (0 :: l) = 0 :=
  foldl_min_zero l

theorem foldl_min_succ (x : Nat) (l : List Nat) :
    (l.map Nat.succ).foldl min x.succ = (l.foldl min x).succ := by
  induction l generalizing x with
  | nil => rfl
  | cons y ys ih =>
    simp only [List.map_cons, List.foldl_cons, Nat.succ_min_succ]
    exact ih _

theorem minNat_map_succ (l : List Nat) (h : l ≠ []) :
    minNat (l.map Nat.succ) = (minNat l).succ := by
  cases l with
  | nil => exact absurd rfl h
  | cons x xs => exact foldl_min_succ x xs

theorem minNat_posOf [DecidableEq α] {keys : List α} {k : α} (h : k ∈ keys) :
    minNat (posOf keys k) = List.indexOf k keys := by
  induction keys with
  | nil => simp at h
  | cons a keys ih =>
    rw [posOf_cons]
    by_cases hak : a = k
    · subst hak
      simp only [if_pos rfl, List.singleton_append]
      rw [List.indexOf_cons_self]
      exact minNat_cons_zero _
    · have hk : k ∈ keys := by
        rcases List.mem_cons.mp h with h1 | h1
        · exact absurd h1.symm hak
        · exact h1
      simp only [if_neg hak, List.nil_append]
      rw [minNat_map_succ _ (posOf_ne_nil hk), ih hk, List.indexOf_cons_ne _ hak]

theorem posOf_append [DecidableEq α] (s q : List α) (k : α) :
    posOf (s ++ q) k = posOf s k ++ (posOf q k).map (fun p => p + s.length) := by
  induction s with
  | nil =>
    show posOf q k = posOf ([] : List α) k ++ (posOf q k).map (fun p => p + 0)
    simp [posOf]
  | cons a s ih =>
    show posOf (a :: (s ++ q)) k = posOf (a :: s) k ++ _
    rw [posOf_cons, posOf_cons, ih, List.map_append, List.map_map, List.append_assoc]
    have hcomp : (Nat.succ ∘ fun p => p + s.length) = fun p => p + (a :: s).length := by
      funext p
      simp [Nat.succ_eq_add_one]
      omega
    rw [hcomp]

theorem posOf_length_count [DecidableEq α] (keys : List α) (k : α) :
    (posOf keys k).length = keys.count k := by
  induction keys with
  | nil => rfl
  | cons a keys ih =>
    rw [posOf_cons, List.length_append, List.length_map, ih, List.count_cons]
    by_cases h : a = k <;> simp [h, Nat.add_comm]

theorem posOf_lt [DecidableEq α] {keys : List α} {k : α} {p : Nat} (h : p ∈ posOf keys k) :
    p < keys.length :=
  (mem_posOf.mp h).1

theorem getD_map_range (f : Nat → Int) {N p : Nat} (hp : p < N) :
    (((List.range N).map f).getD p 0) = f p := by
  rw [List.getD_eq_getElem _ _ (by simpa using hp), List.getElem_map, List.getElem_range]

theorem range_append_range' (n m : Nat) :
    List.range n ++ List.range' n m = List.range (n + m) := by
  rw [List.range_eq_range', List.range_eq_range']
  have h := List.range'_append 0 n m 1
  rw [Nat.add_comm n m]
  simpa using h

theorem whereSI_map (cnd : Int → Bool) (a : Int) (l : List Int) :
    whereSI (l.map cnd) a l = l.map (fun v => if cnd v then a else v) := by
  induction l with
  | nil => rfl
  | cons x xs ih =>
    unfold whereSI at ih ⊢
    simp only [List.map_cons, List.zipWith_cons_cons]
    rw [ih]

theorem groupBroadcast_map_groupMin [DecidableEq α] (le : α → α → Bool) (c : List α)
    (vals : List Int) (f : Int → Int) :
    groupBroadcast le c ((groupMin le c vals).map f) =
      c.map (fun k => f (minInt ((posOf c k).map (fun p => vals.getD p 0)))) := by
  unfold groupBroadcast groupMin
  refine List.map_congr_left (fun kv hkv => ?_)
  have hm : kv ∈ uniqueKeys le c := (mem_uniqueKeys le c kv).mpr hkv
  have hidx : List.indexOf kv (uniqueKeys le c) < (uniqueKeys le c).length :=
    List.indexOf_lt_length.mpr hm
  rw [List.map_map]
  rw [List.getD_eq_getElem _ _ (by simpa using hidx), List.getElem_map,
    List.getElem_indexOf hidx]
  rfl

theorem map_range_ge (n m : Nat) :
    (List.range (n + m)).map (fun p => decide (n ≤ p)) =
      List.replicate n false ++ List.replicate m true := by
  rw [← range_append_range', List.map_append]
  congr 1
  · rw [List.eq_replicate_iff]
    refine ⟨by simp, fun b hb => ?_⟩
    obtain ⟨p, hp, hpb⟩ := List.mem_map.mp hb
    have := List.mem_range.mp hp
    simp only [← hpb, decide_eq_false_iff_not]
    omega
  · rw [List.eq_replicate_iff]
    refine ⟨by simp, fun b hb => ?_⟩
    obtain ⟨p, hp, hpb⟩ := List.mem_map.mp hb
    obtain ⟨i, _, hpi⟩ := List.mem_range'.mp hp
    simp only [← hpb, decide_eq_true_eq]
    omega

theorem boolIndex_append {xs ys : List α} {ma mb : List Bool} (h : xs.length = ma.length) :
    boolIndex (xs ++ ys) (ma ++ mb) = boolIndex xs ma ++ boolIndex ys mb := by
  unfold boolIndex
  rw [List.zip_append h, List.filterMap_append]

theorem boolIndex_replicate_false (l : List α) (k : Nat) :
    boolIndex l (List.replicate k false) = [] := by
  induction l generalizing k with
  | nil => rfl
  | cons x xs ih =>
    cases k with
    | zero => rfl
    | succ k =>
      show boolIndex (x :: xs) (false :: List.replicate k false) = []
      unfold boolIndex
      simp only [List.zip_cons_cons, List.filterMap_cons]
      exact ih k

theorem boolIndex_replicate_true (l : List α) :
    boolIndex l (List.replicate l.length true) = l := by
  induction l with
  | nil => rfl
  | cons x xs ih =>
    show boolIndex (x :: xs) (true :: List.replicate xs.length true) = x :: xs
    unfold boolIndex at ih ⊢
    simp only [List.zip_cons_cons, List.filterMap_cons, if_pos]
    rw [ih]

theorem boolIndex_map_self (F : β → α) (v : β → Bool) (l : List β) :
    boolIndex (l.map F) (l.map v) = (l.filter v).map F := by
  induction l with
  | nil => rfl
  | cons x xs ih =>
    unfold boolIndex at ih ⊢
    simp only [List.map_cons, List.zip_cons_cons, List.filterMap_cons, List.filter_cons]
    by_cases h : v x = true
    · simp only [h, if_true, List.map_cons]
      rw [ih]
    · simp only [h, if_false, Bool.false_eq_true]
      rw [ih]

theorem foldl_min_natCast (x : Nat) (l : List Nat) :
    (l.map (fun p : Nat => (p : Int))).foldl min (x : Int) = ((l.foldl min x : Nat) : Int) := by
  induction l generalizing x with
  | nil => rfl
  | cons y ys ih =>
    rw [List.map_cons, List.foldl_cons, List.foldl_cons]
    have hmin : (min (x : Int) (y : Int)) = ((min x y : Nat) : Int) := by omega
    rw [hmin]
    exact ih (min x y)

theorem minInt_map_natCast (l : List Nat) (h : l ≠ []) :
    minInt (l.map (fun p : Nat => (p : Int))) = ((minNat l : Nat) : Int) := by
  cases l with
  | nil => exact absurd rfl h
  | cons x xs => exact foldl_min_natCast x xs

theorem sum_map_one (l : List β) : (l.map (fun _ => (1 : Int))).sum = (l.length : Int) := by
  induction l with
  | nil => rfl
  | cons x xs ih =>
    simp only [List.map_cons, List.sum_cons, ih, List.length_cons]
    push_cast
    ring

theorem boolIndex_two_blocks (G : α → β) (s q : List α) :
    boolIndex ((s ++ q).map G)
      (List.replicate s.length false ++ List.replicate q.length true) = q.map G := by
  induction s with
  | nil =>
    show boolIndex (q.map G) (List.replicate q.length true) = q.map G
    rw [show q.length = (q.map G).length from (List.length_map q G).symm]
    exact boolIndex_replicate_true _
  | cons a s ih =>
    show boolIndex (G a :: (s ++ q).map G)
      (false :: (List.replicate s.length false ++ List.replicate q.length true)) = q.map G
    unfold boolIndex at ih ⊢
    simp only [List.zip_cons_cons, List.filterMap_cons]
    exact ih

theorem sum_indicator_posOf [DecidableEq α] (s q : List α) (k : α) :
    ((posOf (s ++ q) k).map (fun p =>
        ((List.range (s.length + q.length)).map
          (fun p => if p < s.length then (1 : Int) else 0)).getD p 0)).sum
      = (s.count k : Int) := by
  rw [posOf_append, List.map_append, List.sum_append, List.map_map]
  have h1 : (posOf s k).map (fun p =>
      ((List.range (s.length + q.length)).map
        (fun p => if p < s.length then (1 : Int) else 0)).getD p 0) =
      (posOf s k).map (fun _ => (1 : Int)) := by
    refine List.map_congr_left (fun p hp => ?_)
    rw [getD_map_range _ (lt_of_lt_of_le (posOf_lt hp) (Nat.le_add_right _ _))]
    simp [posOf_lt hp]
  have h2 : (((posOf q k).map ((fun p =>
      ((List.range (s.length + q.length)).map
        (fun p => if p < s.length then (1 : Int) else 0)).getD p 0) ∘
      (fun p => p + s.length)))).sum = 0 := by
    refine List.sum_eq_zero (fun x hx => ?_)
    obtain ⟨p, hp, hxp⟩ := List.mem_map.mp hx
    have hplt : p < q.length := posOf_lt hp
    rw [← hxp]
    show ((List.range (s.length + q.length)).map
      (fun p => if p < s.length then (1 : Int) else 0)).getD (p + s.length) 0 = 0
    rw [getD_map_range _ (by omega)]
    simp
  rw [h1, h2, sum_map_one, posOf_length_count, add_zero]

theorem findCore_snd [DecidableEq α] (le : α → α → Bool) (s q : List α) :
    (findCore le (s ++ q) s.length q.length).2 =
      q.map (findSpecVal s) := by
  unfold findSpecVal lowestIndex
  unfold findCore
  dsimp only
  rw [range_append_range', whereSI_map, groupBroadcast_map_groupMin, map_range_ge,
    boolIndex_two_blocks]
  refine List.map_congr_left (fun k hk => ?_)
  have hkc : k ∈ s ++ q := List.mem_append_right s hk
  have h1 : (posOf (s ++ q) k).map (fun p =>
      ((List.range (s.length + q.length)).map (fun p : Nat => (p : Int))).getD p 0) =
      (posOf (s ++ q) k).map (fun p : Nat => (p : Int)) := by
    refine List.map_congr_left (fun p hp => ?_)
    exact getD_map_range _ (lt_of_lt_of_le (posOf_lt hp) (le_of_eq (List.length_append s q)))
  rw [h1, minInt_map_natCast _ (posOf_ne_nil hkc), minNat_posOf hkc]
  by_cases hks : k ∈ s
  · rw [List.indexOf_append_of_mem hks]
    have hlt : List.indexOf k s < s.length := List.indexOf_lt_length.mpr hks
    have hlt2 : ((List.indexOf k s : Nat) : Int) < (s.length : Int) := by exact_mod_cast hlt
    simp [hks, not_le.mpr hlt2]
  · rw [List.indexOf_append_of_not_mem hks]
    have hge : ((s.length : Nat) : Int) ≤ ((s.length + List.indexOf k q : Nat) : Int) := by
      exact_mod_cast Nat.le_add_right s.length (List.indexOf k q)
    simp [hks, hge]

theorem findCore_fst [DecidableEq α] (le : α → α → Bool) (s q : List α) :
    ((findCore le (s ++ q) s.length q.length).1 = true) ↔ ∃ k, 1 < occCount k s := by
  unfold occCount
  unfold findCore
  dsimp only
  rw [range_append_range']
  unfold groupSum
  rw [List.any_eq_true]
  constructor
  · rintro ⟨x, hx, hpred⟩
    obtain ⟨k, _, hxk⟩ := List.mem_map.mp hx
    rw [← hxk, sum_indicator_posOf] at hpred
    refine ⟨k, ?_⟩
    have := of_decide_eq_true hpred
    exact_mod_cast this
  · rintro ⟨k, hk⟩
    have hks : k ∈ s := List.count_pos_iff.mp (by omega)
    have hku : k ∈ uniqueKeys le (s ++ q) :=
      (mem_uniqueKeys le (s ++ q) k).mpr (List.mem_append_left q hks)
    refine ⟨(s.count k : Int), List.mem_map.mpr ⟨k, hku, sum_indicator_posOf s q k⟩, ?_⟩
    exact decide_eq_true (by exact_mod_cast hk)

theorem map_getD_combineCols_lt (ss qs : List PD) (hlen : qs.length = ss.length)
    (ns : Nat) (hss : ∀ x ∈ ss, x.data.length = ns) (p : Nat) (hp : p < ns) :
    (combineCols ss qs).map (fun c => c.data.getD p 0) =
      ss.map (fun c => c.data.getD p 0) := by
  induction ss generalizing qs with
  | nil =>
    cases qs with
    | nil => rfl
    | cons q0 qs' => simp at hlen
  | cons s0 ss' ih =>
    cases qs with
    | nil => simp at hlen
    | cons q0 qs' =>
      show ((s0.data ++ q0.data).getD p 0) :: _ = (s0.data.getD p 0) :: _
      have hs0 : s0.data.length = ns := hss s0 (List.mem_cons_self s0 ss')
      rw [List.getD_append _ _ _ _ (by omega)]
      exact congrArg (fun l => s0.data.getD p 0 :: l)
        (ih qs' (by simpa using hlen) (fun x hx => hss x (List.mem_cons_of_mem s0 hx)))

theorem map_getD_combineCols_ge (ss qs : List PD) (hlen : qs.length = ss.length)
    (ns : Nat) (hss : ∀ x ∈ ss, x.data.length = ns) (t : Nat) :
    (combineCols ss qs).map (fun c => c.data.getD (ns + t) 0) =
      qs.map (fun c => c.data.getD t 0) := by
  induction ss generalizing qs with
  | nil =>
    cases qs with
    | nil => rfl
    | cons q0 qs' => simp at hlen
  | cons s0 ss' ih =>
    cases qs with
    | nil => simp at hlen
    | cons q0 qs' =>
      show ((s0.data ++ q0.data).getD (ns + t) 0) :: _ = (q0.data.getD t 0) :: _
      have hs0 : s0.data.length = ns := hss s0 (List.mem_cons_self s0 ss')
      rw [List.getD_append_right _ _ _ _ (by omega), hs0]
      rw [show ns + t - ns = t from by omega]
      exact congrArg (fun l => q0.data.getD t 0 :: l)
        (ih qs' (by simpa using hlen) (fun x hx => hss x (List.mem_cons_of_mem s0 hx)))

theorem oneSize_sizes {ss : List PD} (hss : oneSize ss = true) :
    ∀ x ∈ ss, x.data.length = (match ss with | [] => 0 | s0 :: _ => s0.data.length) := by
  cases ss with
  | nil => simp [oneSize] at hss
  | cons s0 ss' =>
    intro x hx
    rcases List.mem_cons.mp hx with h1 | h1
    · rw [h1]
    · exact of_decide_eq_true (List.all_eq_true.mp hss x h1)

theorem length_rowsOf (s0 : PD) (ss' : List PD) :
    (rowsOf (s0 :: ss')).length = s0.data.length := by
  simp [rowsOf]

theorem rowsOf_combineCols (ss qs : List PD) (hlen : qs.length = ss.length)
    (hss : oneSize ss = true) (hqs : oneSize qs = true) :
    rowsOf (combineCols ss qs) = rowsOf ss ++ rowsOf qs := by
  cases ss with
  | nil => simp [oneSize] at hss
  | cons s0 ss' =>
    cases qs with
    | nil => simp [oneSize] at hqs
    | cons q0 qs' =>
      have hssall := oneSize_sizes hss
      have hqsall := oneSize_sizes hqs
      show rowsOf (⟨s0.dtype, s0.data ++ q0.data⟩ :: combineCols ss' qs') = _
      unfold rowsOf
      show (List.range (s0.data ++ q0.data).length).map _ = _
      rw [List.length_append, ← range_append_range', List.map_append]
      congr 1
      · refine List.map_congr_left (fun p hp => ?_)
        have hplt : p < s0.data.length := List.mem_range.mp hp
        exact map_getD_combineCols_lt (s0 :: ss') (q0 :: qs') hlen _ hssall p hplt
      · rw [List.range'_eq_map_range, List.map_map]
        refine List.map_congr_left (fun t _ => ?_)
        show (combineCols (s0 :: ss') (q0 :: qs')).map
          (fun c => c.data.getD (s0.data.length + t) 0) = _
        exact map_getD_combineCols_ge (s0 :: ss') (q0 :: qs') hlen _ hssall t

/-- C1: for every query and space of matching form, `find` returns for
each query element (or row, for multi-column KeySets) the lowest index
at which that element occurs in the space (`List.indexOf` is the first
occurrence), and -1 if the element does not occur in the space. -/
theorem find_returns_lowest_index :
    (∀ (dtq dts : DT) (qd sd : List Int), ∃ w : Bool,
      findE (.single ⟨dtq, qd⟩) (.single ⟨dts, sd⟩) =
        .ok (w, qd.map (findSpecVal sd))) ∧
    (∀ (qs ss : List PD), qs.length = ss.length → oneSize ss = true → oneSize qs = true →
      qs.map PD.dtype = ss.map PD.dtype → ∃ w : Bool,
      findE (.multi qs) (.multi ss) =
        .ok (w, (rowsOf qs).map (findSpecVal (rowsOf ss)))) := by
  constructor
  · intro dtq dts qd sd
    refine ⟨(findCore intLe (sd ++ qd) sd.length qd.length).1, ?_⟩
    rw [← findCore_snd intLe sd qd]
    rfl
  · intro qs ss hlen hss hqs hdt
    cases ss with
    | nil => simp [oneSize] at hss
    | cons s0 ss' =>
      cases qs with
      | nil => simp [oneSize] at hqs
      | cons q0 qs' =>
        refine ⟨(findCore rowLe (rowsOf (combineCols (s0 :: ss') (q0 :: qs')))
          s0.data.length q0.data.length).1, ?_⟩
        unfold findE
        dsimp only
        rw [if_neg (by simp [hlen]), if_neg (by simp [hss, hqs]), if_neg (by simp [hdt])]
        rw [rowsOf_combineCols (s0 :: ss') (q0 :: qs') hlen hss hqs]
        rw [show s0.data.length = (rowsOf (s0 :: ss')).length from (length_rowsOf s0 ss').symm,
          show q0.data.length = (rowsOf (q0 :: qs')).length from (length_rowsOf q0 qs').symm,
          ← findCore_snd rowLe (rowsOf (s0 :: ss')) (rowsOf (q0 :: qs'))]

/-- Witness for C1 at the spec examples: find(query=[2,5,9],
space=[9,5,2,5]) = [2,1,0] and a multi-column instance of find([3],
space=[1,2]) = [-1] discharging the validation hypotheses. -/
theorem find_returns_lowest_index_witness :
    (∃ w : Bool, findE (.single ⟨.int64, [2, 5, 9]⟩) (.single ⟨.int64, [9, 5, 2, 5]⟩) =
      .ok (w, [2, 1, 0])) ∧
    (∃ w : Bool, findE (.multi [⟨.int64, [3]⟩]) (.multi [⟨.int64, [1, 2]⟩]) =
      .ok (w, [-1])) := by
  constructor
  · obtain ⟨w, hw⟩ := find_returns_lowest_index.1 .int64 .int64 [2, 5, 9] [9, 5, 2, 5]
    exact ⟨w, hw.trans (congrArg _ (congrArg _ (by decide)))⟩
  · obtain ⟨w, hw⟩ := find_returns_lowest_index.2 [⟨.int64, [3]⟩] [⟨.int64, [1, 2]⟩]
      (by decide) (by decide) (by decide) (by decide)
    exact ⟨w, hw.trans (congrArg _ (congrArg _ (by decide)))⟩

/-- C5: find emits the non-fatal duplicate-key warning iff the search
space contains at least one repeated key (row, in the multi-column
case), and the returned index array is the deterministic
lowest-index-wins result independently of the warning. -/
theorem find_duplicate_signal :
    (∀ (dtq dts : DT) (qd sd : List Int), ∃ (w : Bool) (r : List Int),
      findE (.single ⟨dtq, qd⟩) (.single ⟨dts, sd⟩) = .ok (w, r) ∧
      (w = true ↔ ∃ v, 1 < occCount v sd) ∧
      r = qd.map (findSpecVal sd)) ∧
    (∀ (qs ss : List PD), qs.length = ss.length → oneSize ss = true → oneSize qs = true →
      qs.map PD.dtype = ss.map PD.dtype → ∃ (w : Bool) (r : List Int),
      findE (.multi qs) (.multi ss) = .ok (w, r) ∧
      (w = true ↔ ∃ v, 1 < occCount v (rowsOf ss)) ∧
      r = (rowsOf qs).map (findSpecVal (rowsOf ss))) := by
  constructor
  · intro dtq dts qd sd
    exact ⟨(findCore intLe (sd ++ qd) sd.length qd.length).1,
      (findCore intLe (sd ++ qd) sd.length qd.length).2,
      rfl, findCore_fst intLe sd qd, findCore_snd intLe sd qd⟩
  · intro qs ss hlen hss hqs hdt
    cases ss with
    | nil => simp [oneSize] at hss
    | cons s0 ss' =>
      cases qs with
      | nil => simp [oneSize] at hqs
      | cons q0 qs' =>
        have hre : findE (.multi (q0 :: qs')) (.multi (s0 :: ss')) =
            .ok (findCore rowLe (rowsOf (s0 :: ss') ++ rowsOf (q0 :: qs'))
              (rowsOf (s0 :: ss')).length (rowsOf (q0 :: qs')).length) := by
          unfold findE
          dsimp only
          rw [if_neg (by simp [hlen]), if_neg (by simp [hss, hqs]), if_neg (by simp [hdt])]
          rw [rowsOf_combineCols (s0 :: ss') (q0 :: qs') hlen hss hqs]
          rw [show s0.data.length = (rowsOf (s0 :: ss')).length from (length_rowsOf s0 ss').symm,
            show q0.data.length = (rowsOf (q0 :: qs')).length from (length_rowsOf q0 qs').symm]
        exact ⟨_, _, hre,
          findCore_fst rowLe (rowsOf (s0 :: ss')) (rowsOf (q0 :: qs')),
          findCore_snd rowLe (rowsOf (s0 :: ss')) (rowsOf (q0 :: qs'))⟩

/-- Witness for C5: space [9,5,2,5] has the repeated key 5, so the
warning fires and the result is still [2,1,0]; space [1,2] has no
repeated key, so it does not fire. -/
theorem find_duplicate_signal_witness :
    findE (.single ⟨.int64, [2, 5, 9]⟩) (.single ⟨.int64, [9, 5, 2, 5]⟩) =
      .ok (true, [2, 1, 0]) ∧
    findE (.single ⟨.int64, [3]⟩) (.single ⟨.int64, [1, 2]⟩) = .ok (false, [-1]) := by
  constructor
  · obtain ⟨w, r, he, hw, hr⟩ := find_duplicate_signal.1 .int64 .int64 [2, 5, 9] [9, 5, 2, 5]
    have hwt : w = true := hw.mpr ⟨5, by decide⟩
    rw [he, hwt, hr]
    exact congrArg _ (congrArg _ (by decide))
  · obtain ⟨w, r, he, hw, hr⟩ := find_duplicate_signal.1 .int64 .int64 [3] [1, 2]
    have hwf : w = false := by
      cases hwsf : w with
      | false => rfl
      | true =>
        obtain ⟨v, hv⟩ := hw.mp hwsf
        have hcle : List.count v [(1 : Int), 2] ≤ 1 :=
          List.nodup_iff_count_le_one.mp (by decide) v
        unfold occCount at hv
        omega
    rw [he, hwf, hr]
    exact congrArg _ (congrArg _ (by decide))

/-- C9: find raises a TypeError, before computing any result, on
mismatched arity (single vs sequence in either direction — the
sequence-query/single-space direction is modelled from the spec — or
sequences of different lengths), on mismatched element counts among the
columns of a multi-column argument, and on mismatched per-column
dtypes. -/
theorem find_type_errors :
    (∀ (a : PD) (bs : List PD), findE (.single a) (.multi bs) = .error .typeError) ∧
    (∀ (as : List PD) (b : PD), findE (.multi as) (.single b) = .error .typeError) ∧
    (∀ (qs ss : List PD), qs.length ≠ ss.length →
      findE (.multi qs) (.multi ss) = .error .typeError) ∧
    (∀ (qs ss : List PD), ¬ (oneSize ss = true ∧ oneSize qs = true) →
      findE (.multi qs) (.multi ss) = .error .typeError) ∧
    (∀ (qs ss : List PD), qs.map PD.dtype ≠ ss.map PD.dtype →
      findE (.multi qs) (.multi ss) = .error .typeError) := by
  refine ⟨fun a bs => rfl, fun as b => rfl, ?_, ?_, ?_⟩
  · intro qs ss h
    unfold findE
    dsimp only
    rw [if_pos h]
  · intro qs ss h
    unfold findE
    dsimp only
    by_cases hlen : qs.length = ss.length
    · rw [if_neg (by simp [hlen]), if_pos h]
    · rw [if_pos hlen]
  · intro qs ss h
    unfold findE
    dsimp only
    by_cases hlen : qs.length = ss.length
    · by_cases hone : oneSize ss = true ∧ oneSize qs = true
      · rw [if_neg (by simp [hlen]), if_neg (by simp [hone.1, hone.2]), if_pos h]
      · rw [if_neg (by simp [hlen]), if_pos hone]
    · rw [if_pos hlen]

/-- Witness for C9: concrete mismatches of each kind are rejected. -/
theorem find_type_errors_witness :
    findE (.multi [⟨.int64, [1]⟩]) (.multi [⟨.int64, [1]⟩, ⟨.int64, [1]⟩]) =
      .error .typeError ∧
    findE (.multi [⟨.int64, [1]⟩]) (.multi [⟨.int64, [1, 2]⟩, ⟨.int64, [1]⟩]) =
      .error .typeError ∧
    findE (.multi [⟨.float64, [1]⟩]) (.multi [⟨.int64, [1]⟩]) = .error .typeError :=
  ⟨find_type_errors.2.2.1 _ _ (by decide),
    find_type_errors.2.2.2.1 _ _ (by decide),
    find_type_errors.2.2.2.2 _ _ (by decide)⟩

theorem uniqueKeys_sorted_lt (keys : List Int) :
    (uniqueKeys intLe keys).Pairwise (fun x y => x < y) := by
  have hp : (sortLe intLe keys).Pairwise (fun x y => intLe x y = true) :=
    sortLe_pairwise intLe
      (fun a b c hab hbc => decide_eq_true
        (le_trans (of_decide_eq_true hab) (of_decide_eq_true hbc)))
      (fun a b => by
        rcases le_total a b with h | h
        · exact Or.inl (decide_eq_true h)
        · exact Or.inr (decide_eq_true h))
      keys
  have hle : (uniqueKeys intLe keys).Pairwise (fun x y => x ≤ y) :=
    (List.Pairwise.sublist (List.dedup_sublist _) hp).imp (fun h => of_decide_eq_true h)
  have hne : (uniqueKeys intLe keys).Pairwise (fun x y => x ≠ y) := nodup_uniqueKeys intLe keys
  exact (hle.and hne).imp (fun h => lt_of_le_of_ne h.1 h.2)

theorem indexOf_sorted_eq_filter_length (l : List Int) (hl : l.Pairwise (fun x y => x < y))
    (v : Int) (hv : v ∈ l) :
    List.indexOf v l = (l.filter (fun w => decide (w < v))).length := by
  induction l with
  | nil => simp at hv
  | cons a t ih =>
    rw [List.pairwise_cons] at hl
    obtain ⟨ha, ht⟩ := hl
    by_cases hav : a = v
    · subst hav
      rw [List.indexOf_cons_self, List.filter_cons]
      rw [if_neg (by simp)]
      rw [List.filter_eq_nil_iff.mpr (fun x hx => by
        simp only [decide_eq_true_eq]
        exact not_lt.mpr (le_of_lt (ha x hx)))]
      rfl
    · have hvt : v ∈ t := by
        rcases List.mem_cons.mp hv with h | h
        · exact absurd h.symm hav
        · exact h
      rw [List.indexOf_cons_ne _ hav, List.filter_cons,
        if_pos (decide_eq_true (ha v hvt)), List.length_cons, ih ht hvt]

theorem zero_up_eq_map (vals : List Int) :
    zero_up vals =
      vals.map (fun v => ((List.indexOf v (uniqueKeys intLe vals) : Nat) : Int)) := by
  unfold zero_up groupBroadcast
  dsimp only
  refine List.map_congr_left (fun kv hkv => ?_)
  have hm : kv ∈ uniqueKeys intLe vals := (mem_uniqueKeys intLe vals kv).mpr hkv
  have hidx : List.indexOf kv (uniqueKeys intLe vals) < (uniqueKeys intLe vals).length :=
    List.indexOf_lt_length.mpr hm
  rw [List.getD_eq_getElem _ _ (by simpa using hidx), List.getElem_map, List.getElem_range]

theorem rank_eq (vals : List Int) (v : Int) (hv : v ∈ vals) :
    List.indexOf v (uniqueKeys intLe vals) =
      (vals.dedup.filter (fun w => decide (w < v))).length := by
  have hs := uniqueKeys_sorted_lt vals
  have hv2 : v ∈ uniqueKeys intLe vals := (mem_uniqueKeys intLe vals v).mpr hv
  rw [indexOf_sorted_eq_filter_length _ hs v hv2]
  exact (((sortLe_perm intLe vals).dedup).filter _).length_eq

/-- C7: zero_up maps every element to the rank of its value among the
ascending distinct values (the number of distinct values smaller than
it), in original order; equal inputs map to equal indices; every rank in
[0,U) is attained; and zero_up([5,0,10,5]) = [1,0,2,1]. -/
theorem zero_up_ranks (vals : List Int) :
    (zero_up vals).length = vals.length ∧
    (∀ j, j < vals.length → (zero_up vals).getD j 0 =
      ((vals.dedup.filter (fun w => decide (w < vals.getD j 0))).length : Int)) ∧
    (∀ j k, j < vals.length → k < vals.length → vals.getD j 0 = vals.getD k 0 →
      (zero_up vals).getD j 0 = (zero_up vals).getD k 0) ∧
    (∀ r : Nat, r < vals.dedup.length → ((r : Nat) : Int) ∈ zero_up vals) ∧
    zero_up [5, 0, 10, 5] = [1, 0, 2, 1] := by
  have hmap := zero_up_eq_map vals
  have hrank : ∀ j, j < vals.length → (zero_up vals).getD j 0 =
      ((vals.dedup.filter (fun w => decide (w < vals.getD j 0))).length : Int) := by
    intro j hj
    rw [hmap, List.getD_eq_getElem _ _ (by simpa using hj), List.getElem_map,
      List.getD_eq_getElem vals 0 hj]
    exact congrArg _ (rank_eq vals vals[j] (List.getElem_mem hj))
  refine ⟨by rw [hmap]; simp, hrank, ?_, ?_, by decide⟩
  · intro j k hj hk hjk
    rw [hrank j hj, hrank k hk, hjk]
  · intro r hr
    have hlen : (uniqueKeys intLe vals).length = vals.dedup.length :=
      ((sortLe_perm intLe vals).dedup).length_eq
    have hr2 : r < (uniqueKeys intLe vals).length := by omega
    have hvmem : (uniqueKeys intLe vals)[r] ∈ uniqueKeys intLe vals := List.getElem_mem hr2
    have hvv : (uniqueKeys intLe vals)[r] ∈ vals := (mem_uniqueKeys intLe vals _).mp hvmem
    have h1 : List.indexOf (uniqueKeys intLe vals)[r] (uniqueKeys intLe vals) <
        (uniqueKeys intLe vals).length := List.indexOf_lt_length.mpr hvmem
    have hidx : List.indexOf (uniqueKeys intLe vals)[r] (uniqueKeys intLe vals) = r :=
      ((nodup_uniqueKeys intLe vals).getElem_inj_iff).mp (List.getElem_indexOf h1)
    rw [hmap]
    exact List.mem_map.mpr ⟨(uniqueKeys intLe vals)[r], hvv, by rw [hidx]⟩

/-- Witness for C7 at the spec example [5,0,10,5]: position 2 holds rank
2 and rank 1 is attained. -/
theorem zero_up_ranks_witness :
    (zero_up [5, 0, 10, 5]).getD 2 0 = 2 ∧ ((1 : Int) ∈ zero_up [5, 0, 10, 5]) := by
  obtain ⟨hlen, hrank, heq, hsurj, hex⟩ := zero_up_ranks [5, 0, 10, 5]
  refine ⟨(hrank 2 (by decide)).trans (by decide), ?_⟩
  have h1 := hsurj 1 (by decide)
  simpa using h1

/-- C8: applying align to an already-dense, gap-free 0-up index array
(values in [0,U) with every integer in [0,U) present at least once,
where U is its distinct-value count) returns it unchanged. -/
theorem align_dense_identity (x : List Int)
    (hrange : ∀ v ∈ x, 0 ≤ v ∧ v < (x.dedup.length : Int))
    (hdense : ∀ k : Nat, k < x.dedup.length → ((k : Nat) : Int) ∈ x) :
    align [x] = [x] := by
  have hflat : ([x] : List (List Int)).flatten = x := by simp
  have hzlen : (zero_up x).length = x.length := by rw [zero_up_eq_map]; simp
  have hzero : zero_up x = x := by
    rw [zero_up_eq_map]
    have hpt : ∀ v ∈ x, ((List.indexOf v (uniqueKeys intLe x) : Nat) : Int) = v := by
      intro v hv
      rw [rank_eq x v hv]
      obtain ⟨hv0, hvU⟩ := hrange v hv
      have hperm : (x.dedup.filter (fun w => decide (w < v))).Perm
          ((List.range v.toNat).map (fun k : Nat => (k : Int))) := by
        rw [List.perm_ext_iff_of_nodup ((List.nodup_dedup x).filter _)
          ((List.nodup_range v.toNat).map_on
            (fun a _ b _ hab => by exact_mod_cast hab))]
        intro a
        constructor
        · intro ha
          obtain ⟨had, hax⟩ := List.mem_filter.mp ha
          have hav : a < v := of_decide_eq_true hax
          have ha0 : 0 ≤ a := (hrange a (List.mem_dedup.mp had)).1
          refine List.mem_map.mpr ⟨a.toNat, List.mem_range.mpr (by omega), by omega⟩
        · intro ha
          obtain ⟨k, hk, hka⟩ := List.mem_map.mp ha
          have hkr : k < v.toNat := List.mem_range.mp hk
          have hkv : ((k : Nat) : Int) < v := by omega
          have hkU : k < x.dedup.length := by omega
          refine List.mem_filter.mpr ⟨List.mem_dedup.mpr (by rw [← hka]; exact hdense k hkU),
            by rw [← hka]; exact decide_eq_true hkv⟩
      rw [hperm.length_eq, List.length_map, List.length_range]
      omega
    calc x.map (fun v => ((List.indexOf v (uniqueKeys intLe x) : Nat) : Int))
        = x.map id := List.map_congr_left (fun v hv => hpt v hv)
      _ = x := List.map_id x
  show alignSlices (zero_up ([x] : List (List Int)).flatten) 0 [x] = [x]
  rw [hflat]
  show ((zero_up x).drop 0).take x.length :: alignSlices (zero_up x) (0 + x.length) [] = [x]
  rw [List.drop_zero, hzero, List.take_length]
  rfl

/-- Witness for C8: [1,0,2,1] is a dense gap-free index (U = 3) and is
returned unchanged. -/
theorem align_dense_identity_witness : align [[1, 0, 2, 1]] = [[1, 0, 2, 1]] :=
  align_dense_identity [1, 0, 2, 1] (by decide) (by decide)

/-! ### search_intervals: validation and the multi-axis None path -/

/-- C2 (code defect witness): a multi-axis search_intervals call that
passes validation but in which no candidate survives the per-axis band
filtering (valid.sum() == 0) returns Python None — the function falls
off its end — instead of the all-(-1) array of length |vals|. -/
theorem search_intervals_multi_empty_none :
    search_intervals (.multi [⟨.int64, [5]⟩])
        (.multi [⟨.int64, [10]⟩], .multi [⟨.int64, [20]⟩]) none = .ok none ∧
    (Except.ok none : Except Err (Option (List Int))) ≠ .ok (some [-1]) :=
  ⟨rfl, by simp⟩

theorem boundsOK_ne_true {ld hd : List Int} (hlen : ld.length = hd.length)
    (h : ∃ k, k < ld.length ∧ hd.getD k 0 < ld.getD k 0) : ¬ boundsOK ld hd = true := by
  obtain ⟨k, hk, hvio⟩ := h
  unfold boundsOK
  intro hall
  rw [List.all_eq_true] at hall
  have hkz : k < (List.zipWith (fun hi lo => decide (lo ≤ hi)) hd ld).length := by
    rw [List.length_zipWith]
    omega
  have hval := hall _ (List.getElem_mem hkz)
  rw [List.getElem_zipWith] at hval
  simp only [id_eq, decide_eq_true_eq] at hval
  rw [List.getD_eq_getElem ld 0 hk, List.getD_eq_getElem hd 0 (by omega)] at hvio
  omega

/-- C6: search_intervals raises ValueError when some upper bound is
strictly below the corresponding lower bound, in both the single-axis
and the multi-axis form, for every vals content (the bounds check
happens during validation, before the values are sorted or scanned). -/
theorem search_intervals_domain_error :
    (∀ (dt : DT) (vd ld hd : List Int) (tb : Option (List Int)),
      numericDT dt = true →
      (∀ t ∈ tb, t.length = ld.length) →
      ld.length = hd.length →
      (∃ k, k < ld.length ∧ hd.getD k 0 < ld.getD k 0) →
      search_intervals (.single ⟨dt, vd⟩) (.single ⟨dt, ld⟩, .single ⟨dt, hd⟩) tb =
        .error .valueError) ∧
    (∀ (vs ls hs : List PD) (tb : Option (List Int)),
      vs.length = ls.length → vs.length = hs.length →
      oneSize vs = true → oneSize ls = true → oneSize hs = true →
      vs.map PD.dtype = ls.map PD.dtype → vs.map PD.dtype = hs.map PD.dtype →
      (∀ t ∈ tb, t.length = (match ls with | [] => 0 | l0 :: _ => l0.data.length)) →
      (match ls with | [] => 0 | l0 :: _ => l0.data.length) =
        (match hs with | [] => 0 | h0 :: _ => h0.data.length) →
      (∃ a, a < ls.length ∧ ∃ k, k < (ls.getD a ⟨.int64, []⟩).data.length ∧
        (hs.getD a ⟨.int64, []⟩).data.getD k 0 < (ls.getD a ⟨.int64, []⟩).data.getD k 0) →
      search_intervals (.multi vs) (.multi ls, .multi hs) tb = .error .valueError) := by
  constructor
  · intro dt vd ld hd tb hnum htb hlh hvio
    have hrest : ∀ rest : Except Err (Option (List Int)),
        (if ¬numericDT dt = true then (Except.error Err.typeError : Except Err (Option (List Int)))
         else if dt ≠ dt ∨ dt ≠ dt then Except.error Err.typeError
         else if ld.length ≠ hd.length then Except.error Err.valueError
         else if ¬boundsOK ld hd = true then Except.error Err.valueError
         else rest) = .error .valueError := by
      intro rest
      rw [if_neg (by simp [hnum]), if_neg (by simp), if_neg (by simp [hlh]),
        if_pos (boundsOK_ne_true hlh hvio)]
    cases tb with
    | none =>
      unfold search_intervals
      dsimp only
      rw [if_neg (by simp)]
      exact hrest _
    | some t =>
      have ht := htb t rfl
      unfold search_intervals
      dsimp only
      rw [if_neg (by simp [ht])]
      exact hrest _
  · intro vs ls hs tb hvl hvh hov hol hoh hdl hdh htb hlh hvio
    cases ls with
    | nil => simp [oneSize] at hol
    | cons l0 ls' =>
      cases hs with
      | nil =>
        rw [List.length_nil] at hvh
        rw [List.length_cons] at hvl
        omega
      | cons h0 hs' =>
        have hlen2 : (l0 :: ls').length = (h0 :: hs').length := by omega
        have hsz : ∀ x ∈ (l0 :: ls'), x.data.length = l0.data.length := by
          have h := oneSize_sizes hol
          simpa using h
        have hszh : ∀ x ∈ (h0 :: hs'), x.data.length = h0.data.length := by
          have h := oneSize_sizes hoh
          simpa using h
        have hl0h0 : l0.data.length = h0.data.length := by simpa using hlh
        have hb : ¬ ((List.zipWith (fun h l => boundsOK l.data h.data)
            (h0 :: hs') (l0 :: ls')).all id = true) := by
          intro hall
          rw [List.all_eq_true] at hall
          obtain ⟨a, ha, k, hk, hvio2⟩ := hvio
          have ha2 : a < (h0 :: hs').length := hlen2 ▸ ha
          have hkz : a < (List.zipWith (fun h l => boundsOK l.data h.data)
              (h0 :: hs') (l0 :: ls')).length := by
            rw [List.length_zipWith]
            exact lt_min ha2 ha
          have hval := hall _ (List.getElem_mem hkz)
          rw [List.getElem_zipWith] at hval
          simp only [id_eq] at hval
          rw [List.getD_eq_getElem (l0 :: ls') _ ha] at hvio2 hk
          rw [List.getD_eq_getElem (h0 :: hs') _ ha2] at hvio2
          have hla : ((l0 :: ls')[a]).data.length = l0.data.length :=
            hsz _ (List.getElem_mem ha)
          have hha : ((h0 :: hs')[a]).data.length = h0.data.length :=
            hszh _ (List.getElem_mem ha2)
          exact boundsOK_ne_true (by rw [hla, hha]; exact hl0h0) ⟨k, hk, hvio2⟩ hval
        have hrest : ∀ rest : Except Err (Option (List Int)),
            (if vs.length ≠ (l0 :: ls').length ∨ vs.length ≠ (h0 :: hs').length then
              (Except.error Err.typeError : Except Err (Option (List Int)))
             else if ¬ (oneSize vs = true ∧ oneSize (l0 :: ls') = true ∧
                oneSize (h0 :: hs') = true) then Except.error Err.typeError
             else if vs.map PD.dtype ≠ (l0 :: ls').map PD.dtype ∨
                vs.map PD.dtype ≠ (h0 :: hs').map PD.dtype then Except.error Err.typeError
             else if l0.data.length ≠ h0.data.length then Except.error Err.valueError
             else if ¬ (List.zipWith (fun h l => boundsOK l.data h.data)
                (h0 :: hs') (l0 :: ls')).all id = true then Except.error Err.valueError
             else rest) = .error .valueError := by
          intro rest
          rw [if_neg (by push_neg; exact ⟨hvl, hvh⟩),
            if_neg (by simp only [not_not]; exact ⟨hov, hol, hoh⟩),
            if_neg (by push_neg; exact ⟨hdl, hdh⟩), if_neg (by simp [hl0h0]), if_pos hb]
        cases tb with
        | none =>
          unfold search_intervals
          dsimp only
          rw [if_neg (by simp)]
          exact hrest _
        | some t =>
          have ht := htb t rfl
          unfold search_intervals
          dsimp only
          rw [if_neg (by simp [ht])]
          exact hrest _

/-- Witness for C6: a reversed interval raises ValueError in both the
single-axis and the multi-axis form. -/
theorem search_intervals_domain_error_witness :
    search_intervals (.single ⟨.int64, [5]⟩) (.single ⟨.int64, [10]⟩, .single ⟨.int64, [3]⟩)
      none = .error .valueError ∧
    search_intervals (.multi [⟨.int64, [5]⟩])
      (.multi [⟨.int64, [10]⟩], .multi [⟨.int64, [3]⟩]) none = .error .valueError := by
  constructor
  · exact search_intervals_domain_error.1 .int64 [5] [10] [3] none rfl
      (by intro t ht; simp at ht) rfl ⟨0, by decide, by decide⟩
  · exact search_intervals_domain_error.2 [⟨.int64, [5]⟩] [⟨.int64, [10]⟩] [⟨.int64, [3]⟩] none
      rfl rfl rfl rfl rfl rfl rfl (by intro t ht; simp at ht) rfl
      ⟨0, by decide, 0, by decide, by decide⟩

/-! ### interval_lookup -/

theorem boolIndex_self_mask (l : List α) (v : α → Bool) :
    boolIndex l (l.map v) = l.filter v := by
  have h := boolIndex_map_self (fun x : α => x) v l
  simpa using h

theorem maskedAssign_spec (g : Int → Int) (fv : Int) (v : Int → Bool) (idx : List Int) :
    maskedAssign (List.replicate idx.length fv) (idx.map v) ((idx.filter v).map g) =
      idx.map (fun k => if v k then g k else fv) := by
  induction idx with
  | nil => rfl
  | cons x xs ih =>
    by_cases hvx : v x = true
    · show maskedAssign (fv :: List.replicate xs.length fv) (v x :: xs.map v) _ = _
      rw [List.filter_cons, if_pos hvx]
      unfold maskedAssign
      rw [if_pos hvx]
      simp only [List.map_cons, List.headD_cons, List.tail_cons]
      rw [ih, hvx]
      simp
    · show maskedAssign (fv :: List.replicate xs.length fv) (v x :: xs.map v) _ = _
      rw [List.filter_cons, if_neg (by simp [hvx])]
      unfold maskedAssign
      rw [if_neg (by simp [hvx])]
      rw [ih]
      simp [hvx]

theorem ite_decide (P : Prop) [Decidable P] (a b : α) :
    (if decide P then a else b) = if P then a else b := by
  by_cases h : P <;> simp [h]

theorem interval_lookup_raw_eq (keys : KArg × KArg) (vpd : PD) (arguments : KArg)
    (fv : Option Int) (tb : Option (List Int)) (idx : List Int)
    (hs : search_intervals arguments keys tb = .ok (some idx))
    (hlen : idx.length = argSize arguments) :
    interval_lookup_raw keys vpd arguments fv tb =
      .ok ⟨vpd.dtype, idx.map (fun k => if -1 < k then vpd.data.getD k.toNat 0
        else fv.getD 0)⟩ := by
  have hstep : ∀ c : Int,
      maskedAssign (List.replicate (argSize arguments) c)
          (idx.map (fun k => decide (-1 < k)))
          ((boolIndex idx (idx.map (fun k => decide (-1 < k)))).map
            (fun k => vpd.data.getD k.toNat 0)) =
        idx.map (fun k => if -1 < k then vpd.data.getD k.toNat 0 else c) := by
    intro c
    rw [boolIndex_self_mask, ← hlen, maskedAssign_spec]
    refine List.map_congr_left (fun k _ => ?_)
    exact ite_decide _ _ _
  cases fv with
  | none =>
    unfold interval_lookup_raw
    rw [hs]
    dsimp only
    rw [hstep 0]
    rfl
  | some f =>
    unfold interval_lookup_raw
    rw [hs]
    dsimp only
    rw [hstep f]
    rfl

/-- C3 counterexample: with two identical intervals [0,10], argument 5,
and tiebreak [1,0], interval_lookup on encoded values returns code 7
(the recursion on the code array uses the default tiebreak, interval 0
wins), whereas the same computation on the code array with the caller's
tiebreak — what the claim asserts the categorical result rewraps —
returns code 8.  The tiebreak is not forwarded. -/
theorem interval_lookup_tiebreak_counterexample :
    interval_lookup (.single ⟨.int64, [0, 0]⟩, .single ⟨.int64, [10, 10]⟩)
        (.encoded [7, 8] [101, 102] 99 0) (.single ⟨.int64, [5]⟩) (some (-1)) (some [1, 0]) =
      .ok (.encoded [7] [101, 102] 99 0) ∧
    interval_lookup (.single ⟨.int64, [0, 0]⟩, .single ⟨.int64, [10, 10]⟩)
        (.raw ⟨.int64, [7, 8]⟩) (.single ⟨.int64, [5]⟩) (some 99) (some [1, 0]) =
      .ok (.raw ⟨.int64, [8]⟩) ∧
    (VArr.encoded [7] [101, 102] 99 0) ≠ (VArr.encoded [8] [101, 102] 99 0) :=
  ⟨rfl, rfl, by decide⟩

/-- C3 (amended): for every valid interval_lookup call the result is
values[idx] where idx = search_intervals(arguments, keys, tiebreak) is
found and fillvalue (or the zero initialization) elsewhere; for
encoded/categorical values the result rewraps, via the original
category table, the same computation applied to the code array with the
missing code as fill value and the DEFAULT tiebreak — the caller's
tiebreak is not forwarded by the recursion. -/
theorem interval_lookup_spec :
    (∀ (keys : KArg × KArg) (dt : DT) (values : List Int) (arguments : KArg)
        (fv : Option Int) (tb : Option (List Int)) (idx : List Int),
      search_intervals arguments keys tb = .ok (some idx) →
      idx.length = argSize arguments →
      interval_lookup keys (.raw ⟨dt, values⟩) arguments fv tb =
        .ok (.raw ⟨dt, idx.map (fun k => if -1 < k then values.getD k.toNat 0
          else fv.getD 0)⟩)) ∧
    (∀ (keys : KArg × KArg) (codes cats : List Int) (naCode naVal : Int) (arguments : KArg)
        (fv : Option Int) (tb : Option (List Int)) (idx0 : List Int),
      search_intervals arguments keys none = .ok (some idx0) →
      idx0.length = argSize arguments →
      interval_lookup keys (.encoded codes cats naCode naVal) arguments fv tb =
        .ok (.encoded (idx0.map (fun k => if -1 < k then codes.getD k.toNat 0 else naCode))
          cats naCode naVal)) := by
  constructor
  · intro keys dt values arguments fv tb idx hs hlen
    unfold interval_lookup
    dsimp only
    rw [interval_lookup_raw_eq keys ⟨dt, values⟩ arguments fv tb idx hs hlen]
  · intro keys codes cats naCode naVal arguments fv tb idx0 hs hlen
    unfold interval_lookup
    dsimp only
    rw [interval_lookup_raw_eq keys ⟨.int64, codes⟩ arguments (some naCode) none idx0 hs hlen]
    rfl

/-- Witness for C3 (amended): interval [0,10] with value 42, arguments
[5, 25]: 5 is found (42), 25 is not (fillvalue -1); and a categorical
instance where the missing code 99 fills the unmatched position. -/
theorem interval_lookup_spec_witness :
    interval_lookup (.single ⟨.int64, [0]⟩, .single ⟨.int64, [10]⟩) (.raw ⟨.int64, [42]⟩)
      (.single ⟨.int64, [5, 25]⟩) (some (-1)) none = .ok (.raw ⟨.int64, [42, -1]⟩) ∧
    interval_lookup (.single ⟨.int64, [0]⟩, .single ⟨.int64, [10]⟩)
      (.encoded [42] [7] 99 0) (.single ⟨.int64, [5, 25]⟩) (some (-1)) none =
      .ok (.encoded [42, 99] [7] 99 0) := by
  constructor
  · have h := interval_lookup_spec.1 (.single ⟨.int64, [0]⟩, .single ⟨.int64, [10]⟩)
      .int64 [42] (.single ⟨.int64, [5, 25]⟩) (some (-1)) none [0, -1] rfl (by decide)
    exact h.trans (congrArg Except.ok (by decide))
  · have h := interval_lookup_spec.2 (.single ⟨.int64, [0]⟩, .single ⟨.int64, [10]⟩)
      [42] [7] 99 0 (.single ⟨.int64, [5, 25]⟩) (some (-1)) none [0, -1] rfl (by decide)
    exact h.trans (congrArg Except.ok (by decide))

/-- C10: with fillvalue=None the zeros-initialized result is never
overwritten by a fill, so every argument contained in no interval yields
the numeric zero of the values dtype, while found positions receive
values[idx]. -/
theorem interval_lookup_none_fillvalue
    (keys : KArg × KArg) (dt : DT) (values : List Int) (arguments : KArg)
    (tb : Option (List Int)) (idx : List Int)
    (hs : search_intervals arguments keys tb = .ok (some idx))
    (hlen : idx.length = argSize arguments) :
    interval_lookup keys (.raw ⟨dt, values⟩) arguments none tb =
      .ok (.raw ⟨dt, idx.map (fun k => if -1 < k then values.getD k.toNat 0 else 0)⟩) := by
  unfold interval_lookup
  dsimp only
  rw [interval_lookup_raw_eq keys ⟨dt, values⟩ arguments none tb idx hs hlen]
  rfl

/-- Witness for C10: arguments [5, 25] against the interval [0,10] with
values [42]: found position gets 42, the unmatched one gets 0. -/
theorem interval_lookup_none_fillvalue_witness :
    interval_lookup (.single ⟨.int64, [0]⟩, .single ⟨.int64, [10]⟩) (.raw ⟨.int64, [42]⟩)
      (.single ⟨.int64, [5, 25]⟩) none none = .ok (.raw ⟨.int64, [42, 0]⟩) := by
  have h := interval_lookup_none_fillvalue (.single ⟨.int64, [0]⟩, .single ⟨.int64, [10]⟩)
    .int64 [42] (.single ⟨.int64, [5, 25]⟩) none [0, -1] rfl (by decide)
  exact h.trans (congrArg Except.ok (by decide))

/-! ### argsort: the sort permutation and its inverse -/

theorem scatter_length (idxs : List Nat) (vals : List Int) : ∀ base : List Int,
    (scatter base idxs vals).length = base.length := by
  unfold scatter
  induction idxs generalizing vals with
  | nil => intro base; rfl
  | cons u us ih =>
    intro base
    cases vals with
    | nil => rfl
    | cons w ws =>
      show ((us.zip ws).foldl (fun b jv => b.set jv.1 jv.2) (base.set u w)).length = _
      rw [ih ws (base.set u w), List.length_set]

end Arkouda
